import Mathlib

/-!
Verification model of the retrieval core of the tiger-docs-mcp-server
repository: skill discovery/normalization/caching (src/prompts skill loader),
semantic vector search (semanticSearchPostgresDocs, semanticSearchTimescaleDocs),
keyword/BM25 search (keywordSearchTigerDocs), and tool registration.

The definitions are shallow embeddings of the TypeScript source. External
collaborators (the embedding provider, the SQL engine distance operators,
gray-matter frontmatter splitting, the filesystem) are taken as explicit
function parameters, matching the boundary the source code itself draws.
Machine floats in result rows are modelled as rationals; JavaScript string
case mapping is modelled on the ASCII range.
-/

/-- The JavaScript regex class \s (ECMAScript WhiteSpace and LineTerminator),
used by the regex /\s+/g in the skill name normalizer and by String.prototype.trim
and the zod .trim() transform. -/
def isJsSpace (c : Char) : Bool :=
  c.val = 9 || c.val = 10 || c.val = 11 || c.val = 12 || c.val = 13 || c.val = 32 ||
  c.val = 0xA0 || c.val = 0x1680 || (0x2000 ≤ c.val && c.val ≤ 0x200A) ||
  c.val = 0x2028 || c.val = 0x2029 || c.val = 0x202F || c.val = 0x205F ||
  c.val = 0x3000 || c.val = 0xFEFF

/-- Separator characters, the regex class [-_] appearing in the collapse and
trim steps of the skill name normalizer. -/
def isSep (c : Char) : Bool := c = '-' || c = '_'

/-- The regex class [a-zA-Z0-9-_] from the validity test
/^[a-zA-Z0-9-_]+$/ in parseSkillFile. -/
def isClassChar (c : Char) : Bool :=
  ('a' ≤ c && c ≤ 'z') || ('A' ≤ c && c ≤ 'Z') || ('0' ≤ c && c ≤ '9') ||
  c = '-' || c = '_'

/-- The regex class [a-z0-9-_]: the complement of the characters replaced by
the substitution /[^a-z0-9-_]/g inside the normalizer. -/
def isLowerClassChar (c : Char) : Bool :=
  ('a' ≤ c && c ≤ 'z') || ('0' ≤ c && c ≤ '9') || c = '-' || c = '_'

/-- JavaScript String.prototype.trim (also the zod .trim() transform and the
content.trim() call in parseSkillFile): strip leading and trailing \s. -/
def jsTrim (s : String) : String :=
  String.mk (((s.data.dropWhile isJsSpace).reverse.dropWhile isJsSpace).reverse)

/-- Scanner for the substitution .replace(/\s+/g, "-"). The flag records
being inside a whitespace run whose dash was already emitted, so each maximal
run of whitespace becomes a single dash. -/
def dashSpacesAux : Bool → List Char → List Char
  | _, [] => []
  | inRun, c :: rest =>
    if isJsSpace c then
      if inRun then dashSpacesAux true rest else '-' :: dashSpacesAux true rest
    else c :: dashSpacesAux false rest

/-- The substitution .replace(/\s+/g, "-"): each maximal run of whitespace
becomes a single dash. -/
def dashSpaces (l : List Char) : List Char := dashSpacesAux false l

/-- The substitution .replace(/[^a-z0-9-_]/g, "_"): every disallowed character
becomes an underscore. -/
def underscoreDisallowed (l : List Char) : List Char :=
  l.map (fun c => if isLowerClassChar c then c else '_')

/-- Scanner for the two run-collapsing substitutions of the normalizer, which
replace the global pattern (lead)[-_]+ by the single character (lead), where
lead is a dash for the first substitution and an underscore for the second.
In the skipping state the current match is being consumed: its greedy
separator run extends while separators remain, and scanning resumes at the
first character after the run, exactly as for a global JavaScript regex. -/
def collapseLeadAux (lead : Char) : Bool → List Char → List Char
  | true, [] => []
  | true, c :: rest =>
    if isSep c then collapseLeadAux lead true rest
    else c :: collapseLeadAux lead false rest
  | false, [] => []
  | false, c :: rest =>
    match rest with
    | [] => [c]
    | d :: _ =>
      if c = lead && isSep d then lead :: collapseLeadAux lead true rest
      else c :: collapseLeadAux lead false rest

/-- The substitution replacing the global pattern "-[-_]+" by "-": a dash
followed by a maximal nonempty run of separators collapses to a single
dash. -/
def collapseDash (l : List Char) : List Char := collapseLeadAux '-' false l

/-- The substitution replacing the global pattern "_[_-]+" by "_": an
underscore followed by a maximal nonempty run of separators collapses to a
single underscore. -/
def collapseUnderscore (l : List Char) : List Char := collapseLeadAux '_' false l

/-- The substitution .replace(/(^[-_]+)|([-_]+$)/g, ""): remove the leading run
and the trailing run of separators. Without the multiline flag the anchors
match only at the ends of the whole string. -/
def trimSeps (l : List Char) : List Char :=
  ((l.dropWhile isSep).reverse.dropWhile isSep).reverse

/-- The skill name normalizer from parseSkillFile: lowercase, whitespace runs
to dashes, disallowed characters to underscores, collapse separator runs,
trim separators at the ends. Case mapping is modelled on ASCII. -/
def normalizeSkillName (s : String) : String :=
  String.mk
    (trimSeps (collapseUnderscore (collapseDash
      (underscoreDisallowed (dashSpaces (s.data.map Char.toLower))))))

/-- The validity test /^[a-zA-Z0-9-_]+$/.test(name) guarding normalization in
parseSkillFile. -/
def validSkillName (s : String) : Bool :=
  !s.data.isEmpty && s.data.all isClassChar

/-- The complete name handling step of parseSkillFile: a name passing the
validity test is kept, any other name is normalized. -/
def skillNameGuard (s : String) : String :=
  if validSkillName s then s else normalizeSkillName s

/-! ## Skill discovery, registry and content cache (the skill loader module) -/

/-- Frontmatter fields of a SKILL.md file as returned by gray-matter and
consumed by zSkillMatter. The gray-matter split itself is an external
library, so discovery below receives its output. -/
structure RawMatter where
  name : String
  description : String
deriving DecidableEq, Repr

/-- The validated metadata produced by parseSkillFile. -/
structure SkillMatter where
  name : String
  description : String
deriving DecidableEq, Repr

/-- A registered skill: zSkill with path, name and description. -/
structure Skill where
  path : String
  name : String
  description : String
deriving DecidableEq, Repr

/-- parseSkillFile: validate the frontmatter with zSkillMatter (the name field
carries a .trim().min(1) transform, so a name that is empty after trimming
fails the parse, modelled as none) and normalize the name when it fails the
validity test. The returned content is the frontmatter-free body, trimmed. -/
def parseSkillFile (m : RawMatter) (fileBody : String) : Option (SkillMatter × String) :=
  let nm := jsTrim m.name
  if nm = "" then none
  else some ({ name := skillNameGuard nm, description := m.description }, jsTrim fileBody)

/-- The log calls issued by the skill loader. -/
inductive LogEvent where
  | warnNormalized (declared normalized : String)
  | warnDuplicate (name path : String)
  | errorLoad (path : String)
  | warnNoSkills
  | infoLoaded (n : Nat)
deriving DecidableEq, Repr

/-- One subdirectory of the skills directory: its path together with the
result of reading its SKILL.md and splitting the frontmatter (none models a
failed readFile or a gray-matter error). -/
abbrev DirEntry := String × Option (RawMatter × String)

/-- The mutable state built up by doLoadSkills: the name-to-skill map, the
content cache keyed by name/subpath, and the emitted log. Both maps are
association lists looked up by first match, as a JavaScript Map. -/
structure LoadState where
  skills : List (String × Skill)
  cache : List (String × String)
  log : List LogEvent
deriving DecidableEq, Repr

/-- JavaScript Map.prototype.set: replace the binding if the key is present,
otherwise append it. -/
def mapSet (k v : String) : List (String × String) → List (String × String)
  | [] => [(k, v)]
  | (k', v') :: rest => if k' = k then (k, v) :: rest else (k', v') :: mapSet k v rest

/-- The body of loadLocalPath for one subdirectory: read failures and parse
failures are caught, logged and skipped; a name already registered is dropped
with a warning (alreadyExists); otherwise the skill is registered and its
trimmed body is cached under name/SKILL.md. -/
def loadSkillStep (st : LoadState) (e : DirEntry) : LoadState :=
  match e.2 with
  | none => { st with log := st.log ++ [.errorLoad e.1] }
  | some (m, body) =>
    match parseSkillFile m body with
    | none => { st with log := st.log ++ [.errorLoad e.1] }
    | some (sm, content) =>
      let warnLog : List LogEvent :=
        if validSkillName (jsTrim m.name) then []
        else [.warnNormalized (jsTrim m.name) sm.name]
      match List.lookup sm.name st.skills with
      | some _ => { st with log := st.log ++ warnLog ++ [.warnDuplicate sm.name e.1] }
      | none =>
        { skills := st.skills ++
            [(sm.name, { path := e.1, name := sm.name, description := sm.description })]
          cache := mapSet (sm.name ++ "/SKILL.md") content st.cache
          log := st.log ++ warnLog }

/-- doLoadSkills: fold loadLocalPath over the subdirectory entries in
directory order, then log a warning when no skill was found and an info line
otherwise. It always returns a registry; it never fails. -/
def doLoadSkills (entries : List DirEntry) : LoadState :=
  let st := entries.foldl loadSkillStep ⟨[], [], []⟩
  if st.skills.isEmpty then { st with log := st.log ++ [.warnNoSkills] }
  else { st with log := st.log ++ [.infoLoaded st.skills.length] }

/-- Whether a directory entry fails discovery: its SKILL.md could not be read
or frontmatter-split, or its metadata fails the zod parse. -/
def loadEntryFails (e : DirEntry) : Bool :=
  match e.2 with
  | none => true
  | some (m, body) => (parseSkillFile m body).isNone

/-- The two failures viewSkillContent can throw: an unknown skill name, or a
failed read of the requested sub-resource of a known skill. -/
inductive SkillError where
  | notFound (name : String)
  | readError (name path : String)
deriving DecidableEq, Repr

/-- The state viewSkillContent touches: the loaded registry and the content
cache. The filesystem is passed per call, since it can change between
calls. -/
structure SkillState where
  skills : List (String × Skill)
  cache : List (String × String)
deriving DecidableEq, Repr

/-- The registry and cache produced by discovery, as consumed by
viewSkillContent. -/
def skillStateOf (st : LoadState) : SkillState := ⟨st.skills, st.cache⟩

/-- viewSkillContent: fail with notFound for an unregistered name; otherwise
serve the cache when it holds a nonempty text for name/targetPath (the source
tests the cached string with a truthiness check, so a cached empty string
falls through to a fresh filesystem read); otherwise read
skill.path/targetPath, populating the cache on success and failing with
readError on failure. -/
def viewSkillContent (fs : String → Option String) (st : SkillState)
    (name : String) (targetPath : String := "SKILL.md") :
    Except SkillError String × SkillState :=
  match List.lookup name st.skills with
  | none => (.error (.notFound name), st)
  | some skill =>
    let cacheKey := name ++ "/" ++ targetPath
    let readFs : Except SkillError String × SkillState :=
      match fs (skill.path ++ "/" ++ targetPath) with
      | some content => (.ok content, { st with cache := mapSet cacheKey content st.cache })
      | none => (.error (.readError name targetPath), st)
    match List.lookup cacheKey st.cache with
    | some cached => if cached = "" then readFs else (.ok cached, st)
    | none => readFs

/-- Run a sequence of viewSkillContent calls, each with its own view of the
filesystem, threading the cache state. -/
def runCalls (calls : List ((String → Option String) × String × String))
    (st : SkillState) : SkillState :=
  calls.foldl (fun s c => (viewSkillContent c.1 s c.2.1 c.2.2).2) st

/-! ## Search services -/

/-- One row of the docs.postgres corpus table as used by the query in
semanticSearchPostgresDocs. Embeddings are fixed-dimension float vectors,
modelled as rational lists. -/
structure PostgresDocRow where
  id : Int
  headerPath : List String
  content : String
  tokenCount : Int
  embedding : List ℚ
  version : Int
deriving DecidableEq, Repr

/-- An output row of semanticSearchPostgresDocs (zEmbeddedDoc). -/
structure PgEmbeddedDoc where
  id : Int
  headerPath : List String
  content : String
  tokenCount : Int
  distance : ℚ
deriving DecidableEq, Repr

/-- ORDER BY key ASC LIMIT n over a row set, the shape shared by all three
search queries. -/
def sqlOrderLimit {α : Type} (key : α → ℚ) (limit : Nat) (rows : List α) : List α :=
  (@List.insertionSort α (fun a b => key a ≤ key b)
    (fun a b => inferInstanceAs (Decidable (key a ≤ key b))) rows).take limit

/-- Input-validation failure raised by the zod input schema before the tool
body runs. -/
inductive ApiError where
  | validation
deriving DecidableEq, Repr

/-- The input schema of semanticSearchPostgresDocs: prompt of minimum length
one, optional integer version defaulting to 17, optional limit of minimum one
defaulting to 10. -/
structure PgSearchInput where
  prompt : String
  version : Option Int := none
  limit : Option Nat := none
deriving DecidableEq, Repr

/-- zod validation of PgSearchInput, returning prompt, version and limit with
defaults applied. -/
def parsePgSearchInput (i : PgSearchInput) : Option (String × Int × Nat) :=
  if i.prompt.length < 1 then none
  else
    match i.limit with
    | some n => if n < 1 then none else some (i.prompt, (i.version.getD 17, n))
    | none => some (i.prompt, (i.version.getD 17, 10))

/-- semanticSearchPostgresDocs: after validation, embed the prompt (the
embedding provider and the SQL distance operator are the dist and embedF
parameters), then run the query filtering on version, ordering ascending by
distance and truncating to the limit. The Boolean records whether the
embedding provider was called. -/
def semanticSearchPostgresDocs (dist : List ℚ → List ℚ → ℚ) (embedF : String → List ℚ)
    (table : List PostgresDocRow) (input : PgSearchInput) :
    Except ApiError (List PgEmbeddedDoc) × Bool :=
  match parsePgSearchInput input with
  | none => (.error .validation, false)
  | some (prompt, version, limit) =>
    let qe := embedF prompt
    (.ok (sqlOrderLimit (fun r => r.distance) limit
      ((table.filter (fun r => r.version == version)).map
        (fun r => { id := r.id, headerPath := r.headerPath, content := r.content,
                    tokenCount := r.tokenCount, distance := dist r.embedding qe }))), true)

/-- One row of the timescale_chunks corpus table, shared by the timescale
semantic search and the keyword search. -/
structure TsDocRow where
  id : Int
  content : String
  metadata : String
  embedding : List ℚ
deriving DecidableEq, Repr

/-- An output row of semanticSearchTimescaleDocs. -/
structure TsEmbeddedDoc where
  id : Int
  content : String
  metadata : String
  distance : ℚ
deriving DecidableEq, Repr

/-- The input schema of semanticSearchTimescaleDocs: prompt of minimum length
one, nullable limit of minimum one. -/
structure TsSearchInput where
  prompt : String
  limit : Option Nat := none
deriving DecidableEq, Repr

/-- zod validation of TsSearchInput. -/
def parseTsSearchInput (i : TsSearchInput) : Option (String × Option Nat) :=
  if i.prompt.length < 1 then none
  else
    match i.limit with
    | some n => if n < 1 then none else some (i.prompt, some n)
    | none => some (i.prompt, none)

/-- semanticSearchTimescaleDocs: embed the prompt, order the whole table
ascending by distance and truncate. The effective limit is the JavaScript
expression (limit or-else 10); zod guarantees a provided limit is at least
one, hence nonzero. -/
def semanticSearchTimescaleDocs (dist : List ℚ → List ℚ → ℚ) (embedF : String → List ℚ)
    (table : List TsDocRow) (input : TsSearchInput) :
    Except ApiError (List TsEmbeddedDoc) × Bool :=
  match parseTsSearchInput input with
  | none => (.error .validation, false)
  | some (prompt, limit) =>
    let qe := embedF prompt
    let n := match limit with
      | some m => if m = 0 then 10 else m
      | none => 10
    (.ok (sqlOrderLimit (fun r => r.distance) n
      (table.map (fun r => { id := r.id, content := r.content, metadata := r.metadata,
                             distance := dist r.embedding qe }))), true)

/-- An output row of keywordSearchTigerDocs. -/
structure KeywordDoc where
  id : Int
  content : String
  metadata : String
  score : ℚ
deriving DecidableEq, Repr

/-- The input schema of keywordSearchTigerDocs: keywords of minimum length
one, nullable limit of minimum one. -/
structure KeywordSearchInput where
  keywords : String
  limit : Option Nat := none
deriving DecidableEq, Repr

/-- zod validation of KeywordSearchInput. -/
def parseKeywordSearchInput (i : KeywordSearchInput) : Option (String × Option Nat) :=
  if i.keywords.length < 1 then none
  else
    match i.limit with
    | some n => if n < 1 then none else some (i.keywords, some n)
    | none => some (i.keywords, none)

/-- keywordSearchTigerDocs: order the table ascending by the native bm25
distance of each content against the query (the bm parameter models the SQL
text-relevance operator over the prebuilt index), truncate to the limit
(the JavaScript expression limit-nullish-coalesce-10), and return each row
with score equal to the negated distance, so that higher score means more
relevant. -/
def keywordSearchTigerDocs (bm : String → String → ℚ) (table : List TsDocRow)
    (input : KeywordSearchInput) : Except ApiError (List KeywordDoc) :=
  match parseKeywordSearchInput input with
  | none => .error .validation
  | some (keywords, limit) =>
    let n := limit.getD 10
    .ok ((sqlOrderLimit (fun r => bm keywords r.content) n table).map
      (fun r => { id := r.id, content := r.content, metadata := r.metadata,
                  score := -(bm keywords r.content) }))

/-! ## Tool registration -/

/-- A tool as produced by an api factory: its registered name and its
disabled flag (factories without the flag leave it false). -/
structure ToolDef where
  name : String
  disabled : Bool := false
deriving DecidableEq, Repr

/-- The keyword search tool definition: disabled unless the
ENABLE_KEYWORD_SEARCH environment variable is exactly "true". -/
def keywordSearchTigerDocsTool (enableKeywordSearchEnv : Option String) : ToolDef :=
  { name := "keyword_search_tiger_docs",
    disabled := enableKeywordSearchEnv != some "true" }

/-- The api factory list of src/apis/index.ts, given the
ENABLE_KEYWORD_SEARCH environment variable. -/
def apiTools (enableKeywordSearchEnv : Option String) : List ToolDef :=
  [ keywordSearchTigerDocsTool enableKeywordSearchEnv,
    { name := "semanticSearchPostgresDocs" },
    { name := "semanticSearchTigerDocs" },
    { name := "get_prompt_template" } ]

/-- Modelled from the spec: the tool-registration loop of the server factory
lives in the mcp-boilerplate package, which is not part of this source tree;
per the spec, a disabled tool is not reachable, with no tool or route
registered for it, so registration keeps exactly the tools whose disabled
flag is off. -/
def registerTools (tools : List ToolDef) : List String :=
  (tools.filter (fun t => !t.disabled)).map (fun t => t.name)

/-! ## Character class and normalization lemmas -/

theorem lowerClass_class {c : Char} (h : isLowerClassChar c = true) : isClassChar c = true := by
  simp only [isLowerClassChar, Bool.or_eq_true, Bool.and_eq_true, decide_eq_true_eq] at h
  simp only [isClassChar, Bool.or_eq_true, Bool.and_eq_true, decide_eq_true_eq]
  tauto

theorem underscoreDisallowed_all (l : List Char) :
    (underscoreDisallowed l).all isLowerClassChar = true := by
  induction l with
  | nil => rfl
  | cons c rest ih =>
    simp only [underscoreDisallowed, List.map_cons, List.all_cons, Bool.and_eq_true] at *
    refine ⟨?_, ih⟩
    split
    · assumption
    · decide

theorem collapseLeadAux_all {p : Char → Bool} {lead : Char} (hl : p lead = true) :
    ∀ (l : List Char) (b : Bool), l.all p = true → (collapseLeadAux lead b l).all p = true := by
  intro l
  induction l with
  | nil => intro b _; cases b <;> rfl
  | cons c rest ih =>
    intro b hall
    rw [List.all_cons, Bool.and_eq_true] at hall
    obtain ⟨hc, hrest⟩ := hall
    cases b with
    | true =>
      simp only [collapseLeadAux]
      split
      · exact ih true hrest
      · rw [List.all_cons, Bool.and_eq_true]; exact ⟨hc, ih false hrest⟩
    | false =>
      cases rest with
      | nil => simp only [collapseLeadAux]; simp [hc]
      | cons d rest2 =>
        simp only [collapseLeadAux]
        split
        · rw [List.all_cons, Bool.and_eq_true]; exact ⟨hl, ih true hrest⟩
        · rw [List.all_cons, Bool.and_eq_true]; exact ⟨hc, ih false hrest⟩

theorem all_dropWhile {p q : Char → Bool} {l : List Char} (h : l.all p = true) :
    (l.dropWhile q).all p = true := by
  rw [List.all_eq_true] at h ⊢
  exact fun x hx => h x ((List.dropWhile_sublist q).subset hx)

theorem trimSeps_all {p : Char → Bool} {l : List Char} (h : l.all p = true) :
    (trimSeps l).all p = true := by
  unfold trimSeps
  rw [List.all_reverse]
  exact all_dropWhile (by rw [List.all_reverse]; exact all_dropWhile h)

theorem normalizeSkillName_all (s : String) :
    (normalizeSkillName s).data.all isLowerClassChar = true := by
  show (trimSeps (collapseUnderscore (collapseDash
    (underscoreDisallowed (dashSpaces (s.data.map Char.toLower)))))).all isLowerClassChar = true
  exact trimSeps_all (collapseLeadAux_all (by decide) _ false
    (collapseLeadAux_all (by decide) _ false (underscoreDisallowed_all _)))

theorem validSkillName_of_lowerClass {s : String} (h1 : s ≠ "")
    (h2 : s.data.all isLowerClassChar = true) : validSkillName s = true := by
  unfold validSkillName
  rw [Bool.and_eq_true]
  constructor
  · cases hd : s.data with
    | nil => exact absurd (String.ext hd) h1
    | cons a t => rfl
  · rw [List.all_eq_true] at h2 ⊢
    exact fun c hc => lowerClass_class (h2 c hc)

theorem skillNameGuard_valid {s : String} (h : validSkillName s = true) :
    skillNameGuard s = s := by
  simp [skillNameGuard, h]

theorem skillNameGuard_all_class (s : String) :
    (skillNameGuard s).data.all isClassChar = true := by
  unfold skillNameGuard
  split
  · next h =>
    rw [validSkillName, Bool.and_eq_true] at h
    exact h.2
  · have h := normalizeSkillName_all s
    rw [List.all_eq_true] at h ⊢
    exact fun c hc => lowerClass_class (h c hc)

theorem skillNameGuard_idem (s : String) :
    skillNameGuard (skillNameGuard s) = skillNameGuard s := by
  by_cases h : validSkillName s = true
  · rw [skillNameGuard_valid h, skillNameGuard_valid h]
  · have hg : skillNameGuard s = normalizeSkillName s := by
      simp [skillNameGuard, h]
    rw [hg]
    by_cases he : normalizeSkillName s = ""
    · rw [he]; decide
    · exact skillNameGuard_valid (validSkillName_of_lowerClass he (normalizeSkillName_all s))

theorem jsTrim_subset (s : String) : (jsTrim s).data ⊆ s.data := by
  intro c hc
  have hc2 : c ∈ ((s.data.dropWhile isJsSpace).reverse.dropWhile isJsSpace).reverse := hc
  rw [List.mem_reverse] at hc2
  have hc3 := (List.dropWhile_sublist isJsSpace).subset hc2
  rw [List.mem_reverse] at hc3
  exact (List.dropWhile_sublist isJsSpace).subset hc3

/-! ## Query shape lemmas -/

theorem sqlOrderLimit_length_le {α : Type} (key : α → ℚ) (n : Nat) (rows : List α) :
    (sqlOrderLimit key n rows).length ≤ n := by
  unfold sqlOrderLimit
  rw [List.length_take]
  exact min_le_left _ _

theorem sqlOrderLimit_sorted {α : Type} (key : α → ℚ) (n : Nat) (rows : List α) :
    (sqlOrderLimit key n rows).Pairwise (fun a b => key a ≤ key b) := by
  haveI : IsTotal α (fun a b => key a ≤ key b) := ⟨fun a b => le_total _ _⟩
  haveI : IsTrans α (fun a b => key a ≤ key b) := ⟨fun a b c h1 h2 => le_trans h1 h2⟩
  exact List.Pairwise.sublist (List.take_sublist _ _)
    (@List.sorted_insertionSort α (fun a b => key a ≤ key b)
      (fun a b => inferInstanceAs (Decidable (key a ≤ key b))) _ _ rows)

theorem sqlOrderLimit_subset {α : Type} (key : α → ℚ) (n : Nat) (rows : List α) :
    sqlOrderLimit key n rows ⊆ rows := by
  intro a ha
  have h1 := (List.take_sublist n _).subset ha
  exact (@List.perm_insertionSort α (fun a b => key a ≤ key b)
    (fun a b => inferInstanceAs (Decidable (key a ≤ key b))) rows).subset h1

/-! ## Association list lemmas -/

theorem lookup_mapSet_self (k v : String) (l : List (String × String)) :
    List.lookup k (mapSet k v l) = some v := by
  induction l with
  | nil => simp [mapSet, List.lookup]
  | cons p rest ih =>
    obtain ⟨a, b⟩ := p
    by_cases h : a = k
    · subst h; simp [mapSet, List.lookup]
    · have hk : k ≠ a := fun he => h he.symm
      simp only [mapSet, if_neg h]
      simp [List.lookup, beq_eq_false_iff_ne.mpr hk, ih]

theorem lookup_mapSet_ne {k k' : String} (v : String) (l : List (String × String))
    (h : k' ≠ k) : List.lookup k' (mapSet k v l) = List.lookup k' l := by
  induction l with
  | nil => simp [mapSet, List.lookup, beq_eq_false_iff_ne.mpr h]
  | cons p rest ih =>
    obtain ⟨a, b⟩ := p
    by_cases ha : a = k
    · subst ha
      simp [mapSet, List.lookup, beq_eq_false_iff_ne.mpr h]
    · simp only [mapSet, if_neg ha]
      by_cases hk : k' = a
      · subst hk; simp [List.lookup]
      · simp [List.lookup, beq_eq_false_iff_ne.mpr hk, ih]

theorem string_append_cancel_right {a b s : String} (h : a ++ s = b ++ s) : a = b := by
  apply String.ext
  have hd := congrArg String.data h
  simp only [String.data_append] at hd
  exact List.append_cancel_right hd

/-! ## Discovery fold lemmas -/

theorem doLoadSkills_skills (es : List DirEntry) :
    (doLoadSkills es).skills = (es.foldl loadSkillStep ⟨[], [], []⟩).skills := by
  simp only [doLoadSkills]
  split <;> rfl

theorem doLoadSkills_cache (es : List DirEntry) :
    (doLoadSkills es).cache = (es.foldl loadSkillStep ⟨[], [], []⟩).cache := by
  simp only [doLoadSkills]
  split <;> rfl

theorem parseSkillFile_name {m : RawMatter} {body : String} {sm : SkillMatter}
    {content : String} (hp : parseSkillFile m body = some (sm, content)) :
    sm.name = skillNameGuard (jsTrim m.name) ∧ sm.description = m.description ∧
      content = jsTrim body := by
  simp only [parseSkillFile] at hp
  split at hp
  · exact absurd hp (by simp)
  · simp only [Option.some.injEq, Prod.mk.injEq] at hp
    obtain ⟨h1, h2⟩ := hp
    refine ⟨?_, ?_, h2.symm⟩
    · rw [← h1]
    · rw [← h1]

theorem loadSkillStep_lookup_mono {st : LoadState} {k : String} {v : Skill} (e : DirEntry)
    (h : List.lookup k st.skills = some v) :
    List.lookup k (loadSkillStep st e).skills = some v := by
  simp only [loadSkillStep]
  split
  · exact h
  · split
    · exact h
    · split
      · exact h
      · rw [List.lookup_append, h]; rfl

theorem foldl_lookup_mono {k : String} {v : Skill} :
    ∀ (es : List DirEntry) (st : LoadState),
      List.lookup k st.skills = some v →
      List.lookup k (es.foldl loadSkillStep st).skills = some v := by
  intro es
  induction es with
  | nil => intro st h; exact h
  | cons e rest ih =>
    intro st h
    rw [List.foldl_cons]
    exact ih _ (loadSkillStep_lookup_mono e h)

theorem loadSkillStep_log_mono {st : LoadState} {x : LogEvent} (e : DirEntry)
    (h : x ∈ st.log) : x ∈ (loadSkillStep st e).log := by
  simp only [loadSkillStep]
  split
  · exact List.mem_append_left _ h
  · split
    · exact List.mem_append_left _ h
    · split
      · exact List.mem_append_left _ (List.mem_append_left _ h)
      · exact List.mem_append_left _ h

theorem foldl_log_mono {x : LogEvent} :
    ∀ (es : List DirEntry) (st : LoadState),
      x ∈ st.log → x ∈ (es.foldl loadSkillStep st).log := by
  intro es
  induction es with
  | nil => intro st h; exact h
  | cons e rest ih =>
    intro st h
    rw [List.foldl_cons]
    exact ih _ (loadSkillStep_log_mono e h)

theorem doLoadSkills_log_mono {x : LogEvent} {es : List DirEntry}
    (h : x ∈ (es.foldl loadSkillStep ⟨[], [], []⟩).log) : x ∈ (doLoadSkills es).log := by
  simp only [doLoadSkills]
  split <;> exact List.mem_append_left _ h

theorem loadSkillStep_log_indep (e : DirEntry) (st st' : LoadState)
    (hs : st.skills = st'.skills) (hc : st.cache = st'.cache) :
    (loadSkillStep st e).skills = (loadSkillStep st' e).skills ∧
      (loadSkillStep st e).cache = (loadSkillStep st' e).cache := by
  obtain ⟨s, c, lg⟩ := st
  obtain ⟨s', c', lg'⟩ := st'
  simp only at hs hc
  subst hs; subst hc
  rcases e with ⟨p, r⟩
  simp only [loadSkillStep]
  split
  · exact ⟨rfl, rfl⟩
  · split
    · exact ⟨rfl, rfl⟩
    · split
      · exact ⟨rfl, rfl⟩
      · exact ⟨rfl, rfl⟩

theorem foldl_log_indep :
    ∀ (es : List DirEntry) (st st' : LoadState),
      st.skills = st'.skills → st.cache = st'.cache →
      (es.foldl loadSkillStep st).skills = (es.foldl loadSkillStep st').skills ∧
        (es.foldl loadSkillStep st).cache = (es.foldl loadSkillStep st').cache := by
  intro es
  induction es with
  | nil => intro st st' hs hc; exact ⟨hs, hc⟩
  | cons e rest ih =>
    intro st st' hs hc
    rw [List.foldl_cons, List.foldl_cons]
    have h := loadSkillStep_log_indep e st st' hs hc
    exact ih _ _ h.1 h.2

theorem loadSkillStep_dup {st : LoadState} {p : String} {m : RawMatter} {body : String}
    {sm : SkillMatter} {content : String} {sk : Skill}
    (hp : parseSkillFile m body = some (sm, content))
    (hdup : List.lookup sm.name st.skills = some sk) :
    loadSkillStep st (p, some (m, body)) =
      { st with log := st.log ++
          (if validSkillName (jsTrim m.name) then []
           else [.warnNormalized (jsTrim m.name) sm.name]) ++
          [.warnDuplicate sm.name p] } := by
  simp only [loadSkillStep, hp, hdup]

theorem loadSkillStep_insert {st : LoadState} {p : String} {m : RawMatter} {body : String}
    {sm : SkillMatter} {content : String}
    (hp : parseSkillFile m body = some (sm, content))
    (hnone : List.lookup sm.name st.skills = none) :
    loadSkillStep st (p, some (m, body)) =
      { skills := st.skills ++ [(sm.name, ⟨p, sm.name, sm.description⟩)]
        cache := mapSet (sm.name ++ "/SKILL.md") content st.cache
        log := st.log ++
          (if validSkillName (jsTrim m.name) then []
           else [.warnNormalized (jsTrim m.name) sm.name]) } := by
  simp only [loadSkillStep, hp, hnone]

theorem loadSkillStep_key_class {st : LoadState} (e : DirEntry)
    (h : ∀ k sk, List.lookup k st.skills = some sk → k.data.all isClassChar = true) :
    ∀ k sk, List.lookup k (loadSkillStep st e).skills = some sk →
      k.data.all isClassChar = true := by
  intro k sk hk
  rcases e with ⟨p, r⟩
  cases r with
  | none => exact h k sk hk
  | some mb =>
    obtain ⟨m, body⟩ := mb
    rcases hp : parseSkillFile m body with _ | ⟨sm, content⟩
    · simp only [loadSkillStep, hp] at hk
      exact h k sk hk
    · rcases hl : List.lookup sm.name st.skills with _ | sk2
      · simp only [loadSkillStep, hp, hl] at hk
        rw [List.lookup_append] at hk
        rcases hcase : List.lookup k st.skills with _ | v
        · rw [hcase] at hk
          simp only [Option.none_or] at hk
          by_cases hbe : k = sm.name
          · subst hbe
            have hn := (parseSkillFile_name hp).1
            rw [hn]
            exact skillNameGuard_all_class _
          · rw [List.lookup_cons] at hk
            rw [show (k == sm.name) = false from beq_eq_false_iff_ne.mpr hbe] at hk
            cases hk
        · rw [hcase] at hk
          exact h k v hcase
      · simp only [loadSkillStep, hp, hl] at hk
        exact h k sk hk

theorem foldl_key_class :
    ∀ (es : List DirEntry) (st : LoadState),
      (∀ k sk, List.lookup k st.skills = some sk → k.data.all isClassChar = true) →
      ∀ k sk, List.lookup k (es.foldl loadSkillStep st).skills = some sk →
        k.data.all isClassChar = true := by
  intro es
  induction es with
  | nil => intro st h; exact h
  | cons e rest ih =>
    intro st h
    rw [List.foldl_cons]
    exact ih _ (loadSkillStep_key_class e h)

theorem doLoadSkills_key_class (es : List DirEntry) :
    ∀ k sk, List.lookup k (doLoadSkills es).skills = some sk →
      k.data.all isClassChar = true := by
  intro k sk hk
  rw [doLoadSkills_skills] at hk
  refine foldl_key_class es ⟨[], [], []⟩ ?_ k sk hk
  intro k' sk' h'
  cases h'

theorem loadSkillStep_cache_keeps {st : LoadState} {nm : String} {sk : Skill} {v : String}
    (e : DirEntry) (hsk : List.lookup nm st.skills = some sk)
    (hc : List.lookup (nm ++ "/SKILL.md") st.cache = some v) :
    List.lookup (nm ++ "/SKILL.md") (loadSkillStep st e).cache = some v := by
  rcases e with ⟨p, r⟩
  cases r with
  | none => exact hc
  | some mb =>
    obtain ⟨m, body⟩ := mb
    rcases hp : parseSkillFile m body with _ | ⟨sm, content⟩
    · simp only [loadSkillStep, hp]
      exact hc
    · rcases hl : List.lookup sm.name st.skills with _ | sk2
      · have hne : sm.name ≠ nm := by
          intro heq
          rw [heq, hsk] at hl
          cases hl
        have hkey : nm ++ "/SKILL.md" ≠ sm.name ++ "/SKILL.md" := by
          intro hkk
          exact hne (string_append_cancel_right hkk.symm)
        simp only [loadSkillStep, hp, hl]
        exact (lookup_mapSet_ne content st.cache hkey).trans hc
      · simp only [loadSkillStep, hp, hl]
        exact hc

theorem foldl_cache_keeps {nm : String} (sk : Skill) {v : String} :
    ∀ (es : List DirEntry) (st : LoadState),
      List.lookup nm st.skills = some sk →
      List.lookup (nm ++ "/SKILL.md") st.cache = some v →
      List.lookup (nm ++ "/SKILL.md") (es.foldl loadSkillStep st).cache = some v := by
  intro es
  induction es with
  | nil => intro st _ hc; exact hc
  | cons e rest ih =>
    intro st hsk hc
    rw [List.foldl_cons]
    exact ih _ (loadSkillStep_lookup_mono e hsk) (loadSkillStep_cache_keeps e hsk hc)

theorem loadSkillStep_fail (st : LoadState) {e : DirEntry} (h : loadEntryFails e = true) :
    loadSkillStep st e = { st with log := st.log ++ [.errorLoad e.1] } := by
  rcases e with ⟨p, r⟩
  cases r with
  | none => rfl
  | some mb =>
    obtain ⟨m, body⟩ := mb
    simp only [loadEntryFails] at h
    have hp : parseSkillFile m body = none := Option.isNone_iff_eq_none.mp h
    simp only [loadSkillStep, hp]

theorem doLoadSkills_empty_warn {es : List DirEntry} (h : (doLoadSkills es).skills = []) :
    LogEvent.warnNoSkills ∈ (doLoadSkills es).log := by
  have hf : (es.foldl loadSkillStep ⟨[], [], []⟩).skills = [] := by
    rw [← doLoadSkills_skills]; exact h
  simp only [doLoadSkills]
  rw [if_pos (by rw [hf]; rfl)]
  simp

theorem doLoadSkills_registers {es1 : List DirEntry} {p : String} {m : RawMatter}
    {body : String} {sm : SkillMatter} {content : String} (es2 : List DirEntry)
    (hp : parseSkillFile m body = some (sm, content))
    (habs : List.lookup sm.name (doLoadSkills es1).skills = none) :
    List.lookup sm.name (doLoadSkills (es1 ++ (p, some (m, body)) :: es2)).skills
        = some ⟨p, sm.name, sm.description⟩ ∧
      List.lookup (sm.name ++ "/SKILL.md")
        (doLoadSkills (es1 ++ (p, some (m, body)) :: es2)).cache = some content := by
  rw [doLoadSkills_skills, doLoadSkills_cache, List.foldl_append, List.foldl_cons]
  rw [doLoadSkills_skills] at habs
  rw [loadSkillStep_insert hp habs]
  constructor
  · apply foldl_lookup_mono
    rw [List.lookup_append, habs]
    simp [List.lookup]
  · apply foldl_cache_keeps ⟨p, sm.name, sm.description⟩
    · rw [List.lookup_append, habs]
      simp [List.lookup]
    · exact lookup_mapSet_self _ _ _

/-! ## Content cache lemmas -/

theorem viewSkillContent_skills (fs : String → Option String) (st : SkillState)
    (n p : String) : ((viewSkillContent fs st n p).2).skills = st.skills := by
  simp only [viewSkillContent]
  split
  · rfl
  · split
    · split
      · split <;> rfl
      · rfl
    · split <;> rfl

theorem viewSkillContent_cache_keeps {fs : String → Option String} {st : SkillState}
    {n p key t : String} (ht : t ≠ "") (hc : List.lookup key st.cache = some t) :
    List.lookup key ((viewSkillContent fs st n p).2).cache = some t := by
  simp only [viewSkillContent]
  split
  · exact hc
  · split
    · next cached hlc =>
      split
      · next hceq =>
        split
        · next content hfs =>
          have hkey : key ≠ n ++ "/" ++ p := by
            intro he
            rw [he, hlc] at hc
            injection hc with hct
            exact ht (hct ▸ hceq)
          exact (lookup_mapSet_ne content st.cache hkey).trans hc
        · exact hc
      · exact hc
    · next hlc =>
      split
      · next content hfs =>
        have hkey : key ≠ n ++ "/" ++ p := by
          intro he
          rw [he, hlc] at hc
          cases hc
        exact (lookup_mapSet_ne content st.cache hkey).trans hc
      · exact hc

theorem viewSkillContent_cached {fs : String → Option String} {st : SkillState}
    {n p t : String} {skill : Skill}
    (hsk : List.lookup n st.skills = some skill)
    (hc : List.lookup (n ++ "/" ++ p) st.cache = some t) (ht : t ≠ "") :
    viewSkillContent fs st n p = (.ok t, st) := by
  simp only [viewSkillContent, hsk, hc]
  rw [if_neg ht]

theorem viewSkillContent_ok {fs : String → Option String} {st : SkillState}
    {n p t : String} {st₁ : SkillState}
    (h : viewSkillContent fs st n p = (.ok t, st₁)) :
    (∃ skill, List.lookup n st₁.skills = some skill) ∧
      List.lookup (n ++ "/" ++ p) st₁.cache = some t := by
  revert h
  simp only [viewSkillContent]
  split
  · intro h
    injection h with h1 h2
    cases h1
  · next skill hsk =>
    split
    · next cached hlc =>
      split
      · next hceq =>
        split
        · next content hfs =>
          intro h
          injection h with h1 h2
          injection h1 with h1
          subst h1
          subst h2
          exact ⟨⟨skill, hsk⟩, lookup_mapSet_self _ _ _⟩
        · intro h
          injection h with h1 h2
          cases h1
      · next hne =>
        intro h
        injection h with h1 h2
        injection h1 with h1
        subst h1
        subst h2
        exact ⟨⟨skill, hsk⟩, hlc⟩
    · next hlc =>
      split
      · next content hfs =>
        intro h
        injection h with h1 h2
        injection h1 with h1
        subst h1
        subst h2
        exact ⟨⟨skill, hsk⟩, lookup_mapSet_self _ _ _⟩
      · intro h
        injection h with h1 h2
        cases h1

theorem runCalls_skills :
    ∀ (calls : List ((String → Option String) × String × String)) (st : SkillState),
      (runCalls calls st).skills = st.skills := by
  intro calls
  induction calls with
  | nil => intro st; rfl
  | cons c rest ih =>
    intro st
    simp only [runCalls, List.foldl_cons] at *
    rw [ih]
    exact viewSkillContent_skills _ _ _ _

theorem runCalls_cache_keeps {key t : String} (ht : t ≠ "") :
    ∀ (calls : List ((String → Option String) × String × String)) (st : SkillState),
      List.lookup key st.cache = some t →
      List.lookup key (runCalls calls st).cache = some t := by
  intro calls
  induction calls with
  | nil => intro st hc; exact hc
  | cons c rest ih =>
    intro st hc
    simp only [runCalls, List.foldl_cons] at *
    exact ih _ (viewSkillContent_cache_keeps ht hc)

theorem string_length_pos {s : String} (h : s ≠ "") : ¬ (s.length < 1) := by
  have hd : s.data ≠ [] := fun hn => h (String.ext hn)
  have h1 : s.length = s.data.length := rfl
  have h2 : s.data.length ≠ 0 := fun h0 => hd (List.length_eq_zero.mp h0)
  omega

/-! ## Claim theorems -/

/-- C1: for every non-empty prompt and every positive integer limit n, the
vector search operations (semanticSearchPostgresDocs and
semanticSearchTimescaleDocs) call the embedding provider, succeed, and
return at most n results ordered by non-decreasing distance. -/
theorem vector_search_limit_and_order
    (dist : List ℚ → List ℚ → ℚ) (embedF : String → List ℚ)
    (pgTable : List PostgresDocRow) (tsTable : List TsDocRow)
    (version : Option Int) (prompt : String) (n : Nat)
    (hprompt : prompt ≠ "") (hn : 1 ≤ n) :
    (∃ rs, semanticSearchPostgresDocs dist embedF pgTable
        { prompt := prompt, version := version, limit := some n } = (.ok rs, true) ∧
      rs.length ≤ n ∧ rs.Pairwise (fun a b => a.distance ≤ b.distance)) ∧
    (∃ rs, semanticSearchTimescaleDocs dist embedF tsTable
        { prompt := prompt, limit := some n } = (.ok rs, true) ∧
      rs.length ≤ n ∧ rs.Pairwise (fun a b => a.distance ≤ b.distance)) := by
  have hlen := string_length_pos hprompt
  have hnlt : ¬ (n < 1) := by omega
  have hn0 : ¬ (n = 0) := by omega
  constructor
  · have hps : parsePgSearchInput { prompt := prompt, version := version, limit := some n }
        = some (prompt, version.getD 17, n) := by
      simp only [parsePgSearchInput, if_neg hlen, if_neg hnlt]
    refine ⟨sqlOrderLimit (fun r => r.distance) n
        ((pgTable.filter (fun r => r.version == version.getD 17)).map
          (fun r => { id := r.id, headerPath := r.headerPath, content := r.content,
                      tokenCount := r.tokenCount, distance := dist r.embedding (embedF prompt) })),
      ?_, sqlOrderLimit_length_le _ _ _, sqlOrderLimit_sorted _ _ _⟩
    simp only [semanticSearchPostgresDocs, hps]
  · have hps : parseTsSearchInput { prompt := prompt, limit := some n }
        = some (prompt, some n) := by
      simp only [parseTsSearchInput, if_neg hlen, if_neg hnlt]
    refine ⟨sqlOrderLimit (fun r => r.distance) n
        (tsTable.map (fun r => { id := r.id, content := r.content, metadata := r.metadata,
                                 distance := dist r.embedding (embedF prompt) })),
      ?_, sqlOrderLimit_length_le _ _ _, sqlOrderLimit_sorted _ _ _⟩
    simp only [semanticSearchTimescaleDocs, hps, if_neg hn0]

/-- C1 witness: a concrete instantiation at prompt "q" and limit 1. -/
theorem vector_search_limit_and_order_witness :
    ("q" : String) ≠ "" ∧ 1 ≤ 1 ∧
    ((∃ rs, semanticSearchPostgresDocs (fun _ _ => 0) (fun _ => []) []
        { prompt := "q", version := some 17, limit := some 1 } = (.ok rs, true) ∧
      rs.length ≤ 1 ∧ rs.Pairwise (fun a b => a.distance ≤ b.distance)) ∧
    (∃ rs, semanticSearchTimescaleDocs (fun _ _ => 0) (fun _ => []) []
        { prompt := "q", limit := some 1 } = (.ok rs, true) ∧
      rs.length ≤ 1 ∧ rs.Pairwise (fun a b => a.distance ≤ b.distance))) :=
  ⟨by decide, by decide,
    vector_search_limit_and_order (fun _ _ => 0) (fun _ => []) [] [] (some 17) "q" 1
      (by decide) (by decide)⟩

/-- C2: for every non-empty keywords string and every positive integer limit
n, keyword search returns at most n results ordered by non-increasing score,
and every returned score is the additive inverse of the native bm25 distance
of that row, so that descending score order coincides with the ascending
native-distance order of the ORDER BY. -/
theorem keyword_search_score_order
    (bm : String → String → ℚ) (table : List TsDocRow) (keywords : String) (n : Nat)
    (hk : keywords ≠ "") (hn : 1 ≤ n) :
    ∃ rs, keywordSearchTigerDocs bm table { keywords := keywords, limit := some n }
        = .ok rs ∧
      rs.length ≤ n ∧
      (∀ r ∈ rs, r.score = -(bm keywords r.content)) ∧
      rs.Pairwise (fun a b => b.score ≤ a.score) := by
  have hlen := string_length_pos hk
  have hnlt : ¬ (n < 1) := by omega
  have hps : parseKeywordSearchInput { keywords := keywords, limit := some n }
      = some (keywords, some n) := by
    simp only [parseKeywordSearchInput, if_neg hlen, if_neg hnlt]
  refine ⟨(sqlOrderLimit (fun r => bm keywords r.content) n table).map
      (fun r => { id := r.id, content := r.content, metadata := r.metadata,
                  score := -(bm keywords r.content) }), ?_, ?_, ?_, ?_⟩
  · simp only [keywordSearchTigerDocs, hps, Option.getD_some]
  · rw [List.length_map]
    exact sqlOrderLimit_length_le _ _ _
  · intro r hr
    rw [List.mem_map] at hr
    obtain ⟨row, _, rfl⟩ := hr
    rfl
  · rw [List.pairwise_map]
    exact (sqlOrderLimit_sorted (fun r => bm keywords r.content) n table).imp
      (fun h => neg_le_neg h)

/-- C2 witness: a concrete instantiation at keywords "k" and limit 1. -/
theorem keyword_search_score_order_witness :
    ("k" : String) ≠ "" ∧ 1 ≤ 1 ∧
    (∃ rs, keywordSearchTigerDocs (fun _ _ => 0) [] { keywords := "k", limit := some 1 }
        = .ok rs ∧
      rs.length ≤ 1 ∧
      (∀ r ∈ rs, r.score = -((fun _ _ => (0 : ℚ)) "k" r.content)) ∧
      rs.Pairwise (fun a b => b.score ≤ a.score)) :=
  ⟨by decide, by decide,
    keyword_search_score_order (fun _ _ => 0) [] "k" 1 (by decide) (by decide)⟩

/-- C3: a vector search call with an empty prompt fails validation and the
embedding provider is never called (the returned flag is false). -/
theorem empty_prompt_validation_no_embed
    (dist : List ℚ → List ℚ → ℚ) (embedF : String → List ℚ)
    (pgTable : List PostgresDocRow) (tsTable : List TsDocRow)
    (version : Option Int) (limit limit' : Option Nat) :
    semanticSearchPostgresDocs dist embedF pgTable
        { prompt := "", version := version, limit := limit }
      = (.error .validation, false) ∧
    semanticSearchTimescaleDocs dist embedF tsTable
        { prompt := "", limit := limit' }
      = (.error .validation, false) :=
  ⟨rfl, rfl⟩

/-- C8: when the ENABLE_KEYWORD_SEARCH environment variable is not exactly
"true", the keyword search tool is disabled and registration produces no tool
or route for it. -/
theorem keyword_search_disabled_not_registered (env : Option String)
    (h : env ≠ some "true") :
    "keyword_search_tiger_docs" ∉ registerTools (apiTools env) := by
  intro hmem
  have hd : (env != some "true") = true := bne_iff_ne.mpr h
  simp [registerTools, apiTools, keywordSearchTigerDocsTool, hd] at hmem

/-- C8 witness: with the variable unset, the keyword search tool is not
registered. -/
theorem keyword_search_disabled_not_registered_witness :
    (none : Option String) ≠ some "true" ∧
      "keyword_search_tiger_docs" ∉ registerTools (apiTools none) :=
  ⟨by decide, keyword_search_disabled_not_registered none (by decide)⟩

/-- C4: a discovered skill whose declared name (after the zod trim) contains a
character outside the class [A-Za-z0-9-_] is registered under the normalized
name (when that name is not already taken by an earlier entry), the declared
name is never a registry key, and viewSkillContent under the declared name
fails with notFound. -/
theorem skill_name_normalized_registration
    (es1 es2 : List DirEntry) (p : String) (m : RawMatter) (body : String)
    (hne : jsTrim m.name ≠ "")
    (hinv : validSkillName (jsTrim m.name) = false)
    (habs : List.lookup (normalizeSkillName (jsTrim m.name))
      (doLoadSkills es1).skills = none) :
    List.lookup (normalizeSkillName (jsTrim m.name))
        (doLoadSkills (es1 ++ (p, some (m, body)) :: es2)).skills
      = some ⟨p, normalizeSkillName (jsTrim m.name), m.description⟩ ∧
    List.lookup m.name (doLoadSkills (es1 ++ (p, some (m, body)) :: es2)).skills = none ∧
    (∀ (fs : String → Option String) (q : String),
      (viewSkillContent fs
        (skillStateOf (doLoadSkills (es1 ++ (p, some (m, body)) :: es2))) m.name q).1
      = .error (.notFound m.name)) := by
  have hg : skillNameGuard (jsTrim m.name) = normalizeSkillName (jsTrim m.name) := by
    simp [skillNameGuard, hinv]
  have hp : parseSkillFile m body
      = some (⟨normalizeSkillName (jsTrim m.name), m.description⟩, jsTrim body) := by
    simp only [parseSkillFile, if_neg hne, hg]
  have hreg := doLoadSkills_registers (p := p) es2 hp habs
  have hbadchar : ∃ c ∈ m.name.data, isClassChar c = false := by
    have hnm : (jsTrim m.name).data ≠ [] := fun hn => hne (String.ext hn)
    have hnotempty : (!(jsTrim m.name).data.isEmpty) = true := by
      cases hd : (jsTrim m.name).data with
      | nil => exact absurd hd hnm
      | cons a t => rfl
    have hallf : (jsTrim m.name).data.all isClassChar = false := by
      rcases hall : (jsTrim m.name).data.all isClassChar with _ | _
      · rfl
      · exfalso
        have hv : validSkillName (jsTrim m.name) = true := by
          simp only [validSkillName, hnotempty, hall, Bool.and_self]
        exact Bool.noConfusion (hv.symm.trans hinv)
    rw [List.all_eq_false] at hallf
    obtain ⟨c, hcmem, hcf⟩ := hallf
    exact ⟨c, jsTrim_subset m.name hcmem, by revert hcf; cases isClassChar c <;> simp⟩
  obtain ⟨c, hcmem, hcf⟩ := hbadchar
  have hnokey : List.lookup m.name
      (doLoadSkills (es1 ++ (p, some (m, body)) :: es2)).skills = none := by
    rcases hcase : List.lookup m.name
        (doLoadSkills (es1 ++ (p, some (m, body)) :: es2)).skills with _ | sk
    · rfl
    · have hall := doLoadSkills_key_class _ _ _ hcase
      rw [List.all_eq_true] at hall
      rw [hall c hcmem] at hcf
      cases hcf
  refine ⟨hreg.1, hnokey, ?_⟩
  intro fs q
  have hsk : List.lookup m.name
      (skillStateOf (doLoadSkills (es1 ++ (p, some (m, body)) :: es2))).skills = none := hnokey
  simp only [viewSkillContent, hsk]

/-- C5: when a later directory entry parses to a name already registered by an
earlier entry, the earlier registration is kept unchanged, the duplicate is
dropped without modifying registry or cache, and a duplicate warning is
logged. -/
theorem duplicate_skill_first_wins
    (es1 es2 : List DirEntry) (p : String) (m : RawMatter) (body : String)
    (sm : SkillMatter) (content : String) (sk : Skill)
    (hp : parseSkillFile m body = some (sm, content))
    (hdup : List.lookup sm.name (doLoadSkills es1).skills = some sk) :
    List.lookup sm.name (doLoadSkills (es1 ++ (p, some (m, body)) :: es2)).skills
        = some sk ∧
    (doLoadSkills (es1 ++ (p, some (m, body)) :: es2)).skills
        = (doLoadSkills (es1 ++ es2)).skills ∧
    (doLoadSkills (es1 ++ (p, some (m, body)) :: es2)).cache
        = (doLoadSkills (es1 ++ es2)).cache ∧
    LogEvent.warnDuplicate sm.name p
        ∈ (doLoadSkills (es1 ++ (p, some (m, body)) :: es2)).log := by
  rw [doLoadSkills_skills] at hdup
  have hstep := loadSkillStep_dup (p := p) hp hdup
  have hindep := foldl_log_indep es2
    (loadSkillStep (es1.foldl loadSkillStep ⟨[], [], []⟩) (p, some (m, body)))
    (es1.foldl loadSkillStep ⟨[], [], []⟩) (by rw [hstep]) (by rw [hstep])
  refine ⟨?_, ?_, ?_, ?_⟩
  · rw [doLoadSkills_skills, List.foldl_append, List.foldl_cons]
    exact foldl_lookup_mono es2 _ (by rw [hstep]; exact hdup)
  · rw [doLoadSkills_skills, doLoadSkills_skills, List.foldl_append, List.foldl_append,
      List.foldl_cons]
    exact hindep.1
  · rw [doLoadSkills_cache, doLoadSkills_cache, List.foldl_append, List.foldl_append,
      List.foldl_cons]
    exact hindep.2
  · apply doLoadSkills_log_mono
    rw [List.foldl_append, List.foldl_cons]
    apply foldl_log_mono
    rw [hstep]
    exact List.mem_append_right _ (by simp)

/-- C6: a directory entry whose manifest cannot be read or parsed is logged
and skipped without affecting the registry or cache built from the other
entries, and a discovery that finds zero skills returns the empty registry
with a warning logged rather than an error. -/
theorem discovery_error_skips_entry
    (es1 es2 : List DirEntry) (e : DirEntry) (hfail : loadEntryFails e = true) :
    (doLoadSkills (es1 ++ e :: es2)).skills = (doLoadSkills (es1 ++ es2)).skills ∧
    (doLoadSkills (es1 ++ e :: es2)).cache = (doLoadSkills (es1 ++ es2)).cache ∧
    LogEvent.errorLoad e.1 ∈ (doLoadSkills (es1 ++ e :: es2)).log ∧
    (∀ es : List DirEntry, (doLoadSkills es).skills = [] →
      LogEvent.warnNoSkills ∈ (doLoadSkills es).log) := by
  have hstep := loadSkillStep_fail (es1.foldl loadSkillStep ⟨[], [], []⟩) hfail
  have hindep := foldl_log_indep es2
    (loadSkillStep (es1.foldl loadSkillStep ⟨[], [], []⟩) e)
    (es1.foldl loadSkillStep ⟨[], [], []⟩) (by rw [hstep]) (by rw [hstep])
  refine ⟨?_, ?_, ?_, fun es h => doLoadSkills_empty_warn h⟩
  · rw [doLoadSkills_skills, doLoadSkills_skills, List.foldl_append, List.foldl_append,
      List.foldl_cons]
    exact hindep.1
  · rw [doLoadSkills_cache, doLoadSkills_cache, List.foldl_append, List.foldl_append,
      List.foldl_cons]
    exact hindep.2
  · apply doLoadSkills_log_mono
    rw [List.foldl_append, List.foldl_cons]
    apply foldl_log_mono
    rw [hstep]
    exact List.mem_append_right _ (by simp)

/-- C7 (amended): once a viewSkillContent call succeeds with a non-empty
text, every later call for the same name and sub-path returns the identical
text, across arbitrary intervening calls and arbitrary changes or deletions
in the backing filesystem, because the successful read populated the cache
and a non-empty cached text is always served. -/
theorem content_cache_stable
    (fs0 : String → Option String) (st : SkillState) (n p t : String)
    (st1 : SkillState)
    (h : viewSkillContent fs0 st n p = (.ok t, st1)) (ht : t ≠ "")
    (calls : List ((String → Option String) × String × String))
    (fs1 : String → Option String) :
    (viewSkillContent fs1 (runCalls calls st1) n p).1 = .ok t := by
  obtain ⟨⟨skill, hsk⟩, hc⟩ := viewSkillContent_ok h
  have hsk2 : List.lookup n (runCalls calls st1).skills = some skill := by
    rw [runCalls_skills]; exact hsk
  have hc2 := runCalls_cache_keeps ht calls st1 hc
  rw [viewSkillContent_cached hsk2 hc2 ht]

/-- C7 witness: a concrete cache-hit run with one intervening call and a
filesystem that has changed before the second call. -/
theorem content_cache_stable_witness :
    (viewSkillContent (fun _ => none)
        ⟨[("a", ⟨"pa", "a", "d"⟩)], [("a/SKILL.md", "hello")]⟩ "a" "SKILL.md"
      = (.ok "hello", ⟨[("a", ⟨"pa", "a", "d"⟩)], [("a/SKILL.md", "hello")]⟩)) ∧
    ("hello" : String) ≠ "" ∧
    (viewSkillContent (fun _ => some "changed")
        (runCalls [((fun _ => some "other"), "a", "extra.md")]
          ⟨[("a", ⟨"pa", "a", "d"⟩)], [("a/SKILL.md", "hello")]⟩) "a" "SKILL.md").1
      = .ok "hello" :=
  ⟨rfl, by decide,
    content_cache_stable (fun _ => none) ⟨[("a", ⟨"pa", "a", "d"⟩)], [("a/SKILL.md", "hello")]⟩
      "a" "SKILL.md" "hello" ⟨[("a", ⟨"pa", "a", "d"⟩)], [("a/SKILL.md", "hello")]⟩
      rfl (by decide)
      [((fun _ => some "other"), "a", "extra.md")] (fun _ => some "changed")⟩

/-- C7 counterexample: when the first successful read returns the empty
string, the truthiness check treats the cached empty string as a miss, so a
later call re-reads the (changed) backing file and returns different text;
byte-identity across calls fails as stated. -/
theorem content_cache_stable_counterexample :
    viewSkillContent (fun q => if q = "pa/x" then some "" else none)
        ⟨[("a", ⟨"pa", "a", "d"⟩)], []⟩ "a" "x"
      = (.ok "", ⟨[("a", ⟨"pa", "a", "d"⟩)], [("a/x", "")]⟩) ∧
    (viewSkillContent (fun q => if q = "pa/x" then some "changed" else none)
        ⟨[("a", ⟨"pa", "a", "d"⟩)], [("a/x", "")]⟩ "a" "x").1
      = .ok "changed" ∧
    ¬ ((Except.ok "changed" : Except SkillError String) = .ok "") :=
  ⟨rfl, rfl, fun h => by injection h with h1; exact absurd h1 (by decide)⟩

/-- C9 (amended): for a discovered skill whose trimmed manifest body is
non-empty, viewSkillContent on the canonical SKILL.md sub-path serves the
trimmed frontmatter-free body cached at discovery time (so it differs from
the raw manifest bytes whenever those differ from the trimmed body), while
any other sub-path absent from the cache is read from the backing filesystem
and returned verbatim. -/
theorem skill_content_frontmatter_stripped
    (es1 es2 : List DirEntry) (p : String) (m : RawMatter) (body : String)
    (sm : SkillMatter) (content : String)
    (hp : parseSkillFile m body = some (sm, content))
    (hcne : content ≠ "")
    (habs : List.lookup sm.name (doLoadSkills es1).skills = none)
    (fs : String → Option String) :
    content = jsTrim body ∧
    (viewSkillContent fs
        (skillStateOf (doLoadSkills (es1 ++ (p, some (m, body)) :: es2))) sm.name
        "SKILL.md").1
      = .ok content ∧
    (∀ q raw, q ≠ "SKILL.md" →
      List.lookup (sm.name ++ "/" ++ q)
          (doLoadSkills (es1 ++ (p, some (m, body)) :: es2)).cache = none →
      fs (p ++ "/" ++ q) = some raw →
      (viewSkillContent fs
          (skillStateOf (doLoadSkills (es1 ++ (p, some (m, body)) :: es2))) sm.name q).1
        = .ok raw) := by
  have hreg := doLoadSkills_registers (p := p) es2 hp habs
  have hsk : List.lookup sm.name
      (skillStateOf (doLoadSkills (es1 ++ (p, some (m, body)) :: es2))).skills
      = some ⟨p, sm.name, sm.description⟩ := hreg.1
  refine ⟨(parseSkillFile_name hp).2.2, ?_, ?_⟩
  · have hc : List.lookup (sm.name ++ "/" ++ "SKILL.md")
        (skillStateOf (doLoadSkills (es1 ++ (p, some (m, body)) :: es2))).cache
        = some content := by
      rw [show sm.name ++ "/" ++ "SKILL.md" = sm.name ++ "/SKILL.md" by
        rw [String.append_assoc]; rfl]
      exact hreg.2
    rw [viewSkillContent_cached hsk hc hcne]
  · intro q raw hq hnc hfs
    have hnc2 : List.lookup (sm.name ++ "/" ++ q)
        (skillStateOf (doLoadSkills (es1 ++ (p, some (m, body)) :: es2))).cache
        = none := hnc
    simp only [viewSkillContent, hsk, hnc2, hfs]

/-- C9 witness: a skill with frontmatter-style surroundings in its raw file
and a non-empty body; content for SKILL.md is the trimmed body, and a second
file in the skill directory is returned verbatim. -/
theorem skill_content_frontmatter_stripped_witness :
    (parseSkillFile ⟨"a", "d"⟩ "\nbody text\n" = some (⟨"a", "d"⟩, "body text") ∧
      ("body text" : String) ≠ "" ∧
      List.lookup "a" (doLoadSkills []).skills = none) ∧
    ("body text" : String) = jsTrim "\nbody text\n" ∧
    (viewSkillContent (fun q => if q = "pa/other.md" then some "raw other" else none)
        (skillStateOf (doLoadSkills [("pa", some (⟨"a", "d"⟩, "\nbody text\n"))])) "a"
        "SKILL.md").1
      = .ok "body text" ∧
    (viewSkillContent (fun q => if q = "pa/other.md" then some "raw other" else none)
        (skillStateOf (doLoadSkills [("pa", some (⟨"a", "d"⟩, "\nbody text\n"))])) "a"
        "other.md").1
      = .ok "raw other" := by
  have h := skill_content_frontmatter_stripped [] [] "pa" ⟨"a", "d"⟩ "\nbody text\n"
    ⟨"a", "d"⟩ "body text" (by decide) (by decide) (by decide)
    (fun q => if q = "pa/other.md" then some "raw other" else none)
  exact ⟨⟨by decide, by decide, by decide⟩, h.1, h.2.1,
    h.2.2 "other.md" "raw other" (by decide) (by decide) (by decide)⟩

/-- C9 counterexample: a manifest whose body trims to the empty string: the
discovery cache stores "" for SKILL.md, the truthy cache check misses, and
viewSkillContent returns the raw manifest file, frontmatter included, instead
of the cached frontmatter-stripped body. -/
theorem skill_content_frontmatter_stripped_counterexample :
    (doLoadSkills [("pa", some (⟨"a", "d"⟩, "\n"))]).cache = [("a/SKILL.md", "")] ∧
    (viewSkillContent
        (fun q => if q = "pa/SKILL.md"
          then some "---\nname: a\ndescription: d\n---\n" else none)
        (skillStateOf (doLoadSkills [("pa", some (⟨"a", "d"⟩, "\n"))])) "a" "SKILL.md").1
      = .ok "---\nname: a\ndescription: d\n---\n" ∧
    ("---\nname: a\ndescription: d\n---\n" : String) ≠ "" :=
  ⟨by decide, rfl, by decide⟩

/-- C10: the normalizer maps every string into the class [a-z0-9-_] (possibly
to the empty string), the guarded normalization step of parseSkillFile leaves
already-valid names unchanged and is idempotent on its own output, and a name
normalizing to the empty string is still registered under the empty string. -/
theorem normalization_closure_fixpoint :
    (∀ s : String, (normalizeSkillName s).data.all isLowerClassChar = true) ∧
    (∀ s : String, validSkillName s = true → skillNameGuard s = s) ∧
    (∀ s : String, skillNameGuard (skillNameGuard s) = skillNameGuard s) ∧
    normalizeSkillName "!!!" = "" ∧
    List.lookup "" (doLoadSkills [("p", some (⟨"!!!", "d"⟩, "b"))]).skills
      = some ⟨"p", "", "d"⟩ :=
  ⟨normalizeSkillName_all, fun _ h => skillNameGuard_valid h, skillNameGuard_idem,
    by decide, by decide⟩

/-- C10 witness: concrete instances of the closure, guard and idempotence
clauses. -/
theorem normalization_closure_fixpoint_witness :
    (normalizeSkillName "My Skill").data.all isLowerClassChar = true ∧
    validSkillName "ok-name" = true ∧
    skillNameGuard "ok-name" = "ok-name" ∧
    skillNameGuard (skillNameGuard "My Skill") = skillNameGuard "My Skill" :=
  ⟨normalization_closure_fixpoint.1 "My Skill", by decide,
    normalization_closure_fixpoint.2.1 "ok-name" (by decide),
    normalization_closure_fixpoint.2.2.1 "My Skill"⟩

/-- C4 witness: the declared name "My Skill" is registered as "my-skill" and
is not retrievable under "My Skill". -/
theorem skill_name_normalized_registration_witness :
    (jsTrim "My Skill" ≠ "" ∧ validSkillName (jsTrim "My Skill") = false ∧
      List.lookup (normalizeSkillName (jsTrim "My Skill")) (doLoadSkills []).skills
        = none) ∧
    List.lookup (normalizeSkillName (jsTrim "My Skill"))
        (doLoadSkills [("p1", some (⟨"My Skill", "d"⟩, "b"))]).skills
      = some ⟨"p1", normalizeSkillName (jsTrim "My Skill"), "d"⟩ ∧
    List.lookup "My Skill" (doLoadSkills [("p1", some (⟨"My Skill", "d"⟩, "b"))]).skills
      = none ∧
    (viewSkillContent (fun _ => none)
        (skillStateOf (doLoadSkills [("p1", some (⟨"My Skill", "d"⟩, "b"))]))
        "My Skill" "SKILL.md").1
      = .error (.notFound "My Skill") := by
  have h := skill_name_normalized_registration [] [] "p1" ⟨"My Skill", "d"⟩ "b"
    (by decide) (by decide) (by decide)
  exact ⟨⟨by decide, by decide, by decide⟩, h.1, h.2.1, h.2.2 (fun _ => none) "SKILL.md"⟩

/-- C5 witness: two entries declaring the name "a"; the first registration is
kept, the duplicate is dropped and warned about. -/
theorem duplicate_skill_first_wins_witness :
    (parseSkillFile ⟨"a", "d2"⟩ "y" = some (⟨"a", "d2"⟩, "y") ∧
      List.lookup "a" (doLoadSkills [("p1", some (⟨"a", "d"⟩, "x"))]).skills
        = some ⟨"p1", "a", "d"⟩) ∧
    List.lookup "a"
        (doLoadSkills [("p1", some (⟨"a", "d"⟩, "x")), ("p2", some (⟨"a", "d2"⟩, "y"))]).skills
      = some ⟨"p1", "a", "d"⟩ ∧
    (doLoadSkills [("p1", some (⟨"a", "d"⟩, "x")), ("p2", some (⟨"a", "d2"⟩, "y"))]).skills
      = (doLoadSkills [("p1", some (⟨"a", "d"⟩, "x"))]).skills ∧
    (doLoadSkills [("p1", some (⟨"a", "d"⟩, "x")), ("p2", some (⟨"a", "d2"⟩, "y"))]).cache
      = (doLoadSkills [("p1", some (⟨"a", "d"⟩, "x"))]).cache ∧
    LogEvent.warnDuplicate "a" "p2"
      ∈ (doLoadSkills [("p1", some (⟨"a", "d"⟩, "x")), ("p2", some (⟨"a", "d2"⟩, "y"))]).log := by
  have h := duplicate_skill_first_wins [("p1", some (⟨"a", "d"⟩, "x"))] [] "p2"
    ⟨"a", "d2"⟩ "y" ⟨"a", "d2"⟩ "y" ⟨"p1", "a", "d"⟩ (by decide) (by decide)
  exact ⟨⟨by decide, by decide⟩, h.1, h.2.1, h.2.2.1, h.2.2.2⟩

/-- C6 witness: an unreadable entry between two good entries is skipped with
an error logged, and an empty discovery warns. -/
theorem discovery_error_skips_entry_witness :
    loadEntryFails ("bad", none) = true ∧
    (doLoadSkills [("bad", none), ("p2", some (⟨"a", "d"⟩, "x"))]).skills
      = (doLoadSkills [("p2", some (⟨"a", "d"⟩, "x"))]).skills ∧
    (doLoadSkills [("bad", none), ("p2", some (⟨"a", "d"⟩, "x"))]).cache
      = (doLoadSkills [("p2", some (⟨"a", "d"⟩, "x"))]).cache ∧
    LogEvent.errorLoad "bad" ∈ (doLoadSkills [("bad", none), ("p2", some (⟨"a", "d"⟩, "x"))]).log ∧
    ((doLoadSkills ([] : List DirEntry)).skills = [] →
      LogEvent.warnNoSkills ∈ (doLoadSkills ([] : List DirEntry)).log) := by
  have h := discovery_error_skips_entry [] [("p2", some (⟨"a", "d"⟩, "x"))] ("bad", none)
    (by decide)
  exact ⟨by decide, h.1, h.2.1, h.2.2.1, h.2.2.2 []⟩
